import Mathlib

/-!
Verification of the kuuzuki `.agentrc` plugin (`src/packages/agentrc/src/index.js`)
against its natural-language specification.

The JavaScript source is shallowly embedded: each relevant function of the
plugin becomes an executable Lean definition operating on explicit data
(file contents are passed in as parameters instead of being read from disk,
the in-place mutation of the config object becomes explicit state passing,
and JavaScript truthiness on JSON-shaped values is modelled with `Option`).
-/

namespace Agentrc

/-! ## Character and string primitives

JavaScript string operations (`includes`, `startsWith`, `split`,
`toLowerCase`, `replace(/['"]/g,"")`) are modelled over `List Char` so that
every definition reduces in the kernel.  `charLower` models
`String.prototype.toLowerCase` on the ASCII range, which covers every
pattern the plugin compares case-insensitively (`"protect .env"`). -/

def backtickC : Char := Char.ofNat 96

def dquoteC : Char := Char.ofNat 34

def squoteC : Char := Char.ofNat 39

def listIsPrefix : List Char → List Char → Bool
  | [], _ => true
  | _ :: _, [] => false
  | a :: as, b :: bs => a == b && listIsPrefix as bs

def listContainsSub (pat : List Char) : List Char → Bool
  | [] => listIsPrefix pat []
  | c :: rest => listIsPrefix pat (c :: rest) || listContainsSub pat rest

/-- JavaScript `s.includes(pat)`. -/
def strContains (s pat : String) : Bool := listContainsSub pat.data s.data

/-- JavaScript `s.startsWith(pre)`. -/
def strStartsWith (s pre : String) : Bool := listIsPrefix pre.data s.data

/-- JavaScript `s.substring(n)` / dropping a known prefix. -/
def strDrop (s : String) (n : Nat) : String := ⟨s.data.drop n⟩

def charLower (c : Char) : Char :=
  if 65 ≤ c.toNat ∧ c.toNat ≤ 90 then Char.ofNat (c.toNat + 32) else c

/-- JavaScript `s.toLowerCase()` (ASCII model). -/
def strToLower (s : String) : String := ⟨s.data.map charLower⟩

def splitCharAux (c : Char) : List Char → List Char → List (List Char)
  | [], acc => [acc.reverse]
  | x :: xs, acc =>
    if x == c then acc.reverse :: splitCharAux c xs []
    else splitCharAux c xs (x :: acc)

/-- JavaScript `s.split(c)` for a single-character separator. -/
def splitChar (c : Char) (s : String) : List String :=
  (splitCharAux c s.data []).map (fun l => ⟨l⟩)

/-! ## JSON values and the config locator (`loadAgentrcConfig`)

`loadAgentrcConfig` walks a fixed candidate list (project root, global
config dir, kuuzuki global dir), reading and `JSON.parse`-ing each file in
a `try` block.  A candidate read is modelled as
`Option (Option Json)`: `none` = the read threw (file absent),
`some none` = the read succeeded but `JSON.parse` threw,
`some (some j)` = the content parsed to the JSON value `j`. -/

inductive Json where
  | null : Json
  | bool (b : Bool) : Json
  | num (n : Int) : Json
  | str (s : String) : Json
  | arr (elems : List Json) : Json
  | obj (fields : List (String × Json)) : Json
deriving Repr

/-- JavaScript `typeof v === 'object'` for a `JSON.parse` result:
true for `null`, arrays and objects. -/
def jsTypeofObject : Json → Bool
  | .null => true
  | .arr _ => true
  | .obj _ => true
  | _ => false

def isJsonNull : Json → Bool
  | .null => true
  | _ => false

/-- `validateAgentrcConfig` (index.js:21-26): throws
`Invalid .agentrc: must be an object` unless the value is a non-null
`typeof 'object'` value; otherwise returns it unchanged. -/
def validateAgentrcConfig (j : Json) : Except String Json :=
  if jsTypeofObject j && !isJsonNull j then .ok j
  else .error "Invalid .agentrc: must be an object"

/-- One iteration of the candidate loop of `loadAgentrcConfig`
(index.js:38-50): any raised error — read failure, parse failure, or the
validation throw — is caught and the loop continues. -/
def tryLoadCandidate : Option (Option Json) → Option Json
  | some (some j) =>
    match validateAgentrcConfig j with
    | .ok c => some c
    | .error _ => none
  | _ => none

def loadAgentrcAux : Nat → List (Option (Option Json)) → Option (Json × Nat)
  | _, [] => none
  | i, r :: rest =>
    match tryLoadCandidate r with
    | some j => some (j, i)
    | none => loadAgentrcAux (i + 1) rest

/-- `loadAgentrcConfig` (index.js:31-56): first successfully parsed and
validated candidate wins, returned together with the index of its
location in the fixed priority list; `none` when every candidate fails. -/
def loadAgentrcConfig (reads : List (Option (Option Json))) : Option (Json × Nat) :=
  loadAgentrcAux 0 reads

/-! ## Structured configuration

The configuration object the plugin keeps in memory, restricted to the
keys its logic reads.  JavaScript key absence (`undefined`) is `none`;
`jsOrElse` is the `{...legacy, ...primary}` override on one key.  The
spread `{...agentrcConfig, ...}` in `mergeConfigs` preserves every other
key of the primary config, which the record update `{ a with ... }`
mirrors. -/

structure Commands where
  test : Option String := none
  build : Option String := none
  lint : Option String := none
  dev : Option String := none
deriving Repr, DecidableEq

structure Security where
  sensitiveFiles : Option (List String) := none
  restrictedPaths : Option (List String) := none
deriving Repr, DecidableEq

structure Config where
  commands : Option Commands := none
  rules : Option (List String) := none
  project : Option (List (String × String)) := none
  security : Option Security := none
deriving Repr, DecidableEq

def jsOrElse (p l : Option String) : Option String :=
  match p with
  | some v => some v
  | none => l

/-- Key-wise object spread `{ ...l, ...p }` on the `commands` object
(index.js:123-126): a key present in the primary config overrides the
legacy value. -/
def mergeCommands (l p : Commands) : Commands :=
  { test := jsOrElse p.test l.test
    build := jsOrElse p.build l.build
    lint := jsOrElse p.lint l.lint
    dev := jsOrElse p.dev l.dev }

def lookupStr (m : List (String × String)) (k : String) : Option String :=
  (m.find? (fun kv => kv.1 == k)).map (fun kv => kv.2)

/-- Object spread `{ ...l, ...p }` on the free-form `project` object
(index.js:131-134): legacy entries keep their position but take the
primary value on collision; fresh primary keys are appended. -/
def mergeStrMap (l p : List (String × String)) : List (String × String) :=
  (l.map (fun kv => (kv.1, (lookupStr p kv.1).getD kv.2))) ++
    p.filter (fun kv => (lookupStr l kv.1).isNone)

/-- `mergeConfigs` (index.js:112-136).  JavaScript truthiness of the two
arguments (each is an object or `null`) is the `Option` pattern match;
when both are present, `rules` is legacy-first concatenation and
`commands`/`project` are spread-merged with primary winning. -/
def mergeConfigs : Option Config → Option Config → Option Config
  | none, none => none
  | none, some l => some l
  | some a, none => some a
  | some a, some l =>
    some { a with
      commands := some (mergeCommands (l.commands.getD {}) (a.commands.getD {}))
      rules := some (l.rules.getD [] ++ a.rules.getD [])
      project := some (mergeStrMap (l.project.getD []) (a.project.getD [])) }

/-! ## Legacy config extractor (`loadLegacyConfigs`, index.js:61-107)

Only the `agents` (AGENTS.md) and `claude` (CLAUDE.md) file types are
parsed; `.cursorrules` and the copilot file are read but never
interpreted.  Each line of a parsed file may append one rule and may
assign the `test`/`build`/`lint` command keys from the first
backtick-quoted span of the line. -/

/-- First match of the regex `/\x60([^\x60]+)\x60/` (index.js:90): the first
non-empty run of non-backtick characters enclosed in backticks. -/
def fbAux : Option (List Char) → List Char → Option (List Char)
  | _, [] => none
  | none, c :: rest =>
    if c == backtickC then fbAux (some []) rest else fbAux none rest
  | some acc, c :: rest =>
    if c == backtickC then
      if acc.isEmpty then fbAux (some []) rest else some acc.reverse
    else fbAux (some (c :: acc)) rest

def firstBacktickSpan (s : String) : Option String :=
  (fbAux none s.data).map (fun l => ⟨l⟩)

/-- The rule heuristic (index.js:85-87): a line starting with a dash-space
and containing a colon contributes the line minus its first two
characters. -/
def legacyLineRule (line : String) : Option String :=
  if strStartsWith line "- " && strContains line ":" then some (strDrop line 2)
  else none

/-- The command heuristic's guard and extraction (index.js:88-92): only
lines containing `\x60npm `, `\x60bun ` or `\x60yarn ` are searched for a
backtick-quoted command. -/
def legacyLineCmd (line : String) : Option String :=
  if strContains line "\x60npm " || strContains line "\x60bun " ||
      strContains line "\x60yarn " then
    firstBacktickSpan line
  else none

/-- Category assignment for one extracted command (index.js:93-95): each
`includes` check *assigns* the key, overwriting any earlier value. -/
def assignLegacyCmd (cmds : Commands) (cmd : String) : Commands :=
  let cmds := if strContains cmd "test" then { cmds with test := some cmd } else cmds
  let cmds := if strContains cmd "build" then { cmds with build := some cmd } else cmds
  if strContains cmd "lint" then { cmds with lint := some cmd } else cmds

def legacyProcessLine (st : Commands × List String) (line : String) :
    Commands × List String :=
  let rules :=
    match legacyLineRule line with
    | some r => st.2 ++ [r]
    | none => st.2
  let cmds :=
    match legacyLineCmd line with
    | some cmd => assignLegacyCmd st.1 cmd
    | none => st.1
  (cmds, rules)

def legacyProcessFile (st : Commands × List String) : Option String →
    Commands × List String
  | none => st
  | some content => (splitChar (Char.ofNat 10) content).foldl legacyProcessLine st

def hasAnyCommand (c : Commands) : Bool :=
  c.test.isSome || c.build.isSome || c.lint.isSome || c.dev.isSome

/-- `loadLegacyConfigs` (index.js:61-107), over the contents of AGENTS.md
and CLAUDE.md (`none` = file absent).  Returns `none` (JavaScript `null`)
unless at least one rule or one command key was extracted; otherwise the
legacy object always carries `rules`, `commands` and `project` keys (the
latter always empty). -/
def loadLegacyConfigs (agentsMd claudeMd : Option String) : Option Config :=
  let st := legacyProcessFile (legacyProcessFile ({}, []) agentsMd) claudeMd
  if st.2.length > 0 || hasAnyCommand st.1 then
    some { commands := some st.1, rules := some st.2, project := some [] }
  else none

/-! ## Memory command handler (`handleMemoryCommand`, index.js:378-434)

The handler mutates the shared config object in place and conditionally
writes it back to `configPath`; the embedding returns the post-state and
a flag recording whether `fs.writeFile` was reached.  JavaScript array
semantics carried over: `rules[ruleId]` yields `undefined` out of
`[0, length)`, and `rules.splice(ruleId, 1)` clamps a too-large start
(removing nothing) and wraps a negative one. -/

/-- JavaScript `rules[ruleId]` for an integer index. -/
def jsArrayGet (l : List String) (i : Int) : Option String :=
  if i < 0 then none else l.get? i.toNat

/-- Start index normalisation of `Array.prototype.splice`. -/
def jsSpliceStart (n : Nat) (i : Int) : Nat :=
  if i < 0 then ((n : Int) + i).toNat else min i.toNat n

/-- JavaScript `rules.splice(ruleId, 1)`: the array after removing (at
most) one element at the normalised start index. -/
def jsSplice1 (l : List String) (i : Int) : List String :=
  l.eraseIdx (jsSpliceStart l.length i)

structure MemOutcome where
  title : String
  output : String
  config : Option Config
  persisted : Bool
deriving Repr, DecidableEq

/-- Rendering of the `list` snapshot (index.js:383-390); models the
`JSON.stringify` of the rules/commands/project triple, whose exact text
no later logic inspects. -/
def listSnapshot (config : Option Config) : String :=
  "rules: " ++ toString ((config.bind Config.rules).getD []) ++
    " commands: " ++ reprStr ((config.bind Config.commands).getD {}) ++
    " project: " ++ toString ((config.bind Config.project).getD [])

def memoryHelpText : String :=
  "Available actions: list, add, remove\nUsage: memory action=list | memory action=add rule='Your rule' | memory action=remove ruleId=0"

/-- `handleMemoryCommand` (index.js:378-434).  `action`/`rule` are absent
(`undefined`) or strings; `ruleId` is absent or an integer; `config` is
the shared merged config (or `null`); `configPath` is the primary file
path (or `null`).  `.error` is a thrown `Error`'s message. -/
def handleMemoryCommand (action rule : Option String) (ruleId : Option Int)
    (config : Option Config) (configPath : Option String) :
    Except String MemOutcome :=
  match action with
  | some "list" =>
    .ok { title := "📋 Project Rules", output := listSnapshot config
          config := config, persisted := false }
  | some "add" =>
    -- `if (!rule)`: absent and the empty string are both falsy
    if rule = none ∨ rule = some "" then .error "Rule text required"
    else
      match config, rule with
      | none, _ => .error "No .agentrc config found"
      | some cfg, some r =>
        let cfg := { cfg with rules := some (cfg.rules.getD [] ++ [r]) }
        .ok { title := "✅ Rule Added", output := "Added rule: " ++ r
              config := some cfg, persisted := configPath.isSome }
      | some _, none => .error "Rule text required"
  | some "remove" =>
    match ruleId with
    | none => .error "Rule ID required"
    | some i =>
      -- `if (!config?.rules)`: null config or absent rules key (an empty
      -- rules array is truthy and passes)
      match config with
      | none => .error "No rules found"
      | some cfg =>
        match cfg.rules with
        | none => .error "No rules found"
        | some rs =>
          let removed := jsArrayGet rs i
          let cfg := { cfg with rules := some (jsSplice1 rs i) }
          .ok { title := "🗑️ Rule Removed"
                output := "Removed rule: " ++ removed.getD "undefined"
                config := some cfg, persisted := configPath.isSome }
  | _ =>
    .ok { title := "🌸 Kuuzuki Memory Tool", output := memoryHelpText
          config := config, persisted := false }

/-! ## Command mapping (`tool.execute.before`, index.js:647-686)

The hook captures `output.args.command` once, then runs a fixed sequence
of `if` statements, each comparing the *captured* string and assigning
the replacement into `output.args.command`.  The build/lint/dev blocks
appear twice in the source; both occurrences are modelled. -/

def applyMap (cond : Bool) (repl : Option String) (out : String) : String :=
  match cond, repl with
  | true, some s => s
  | _, _ => out

def mapCommandSteps (cmd : String) (c : Commands) : String :=
  let o := applyMap (cmd == "npm test") c.test cmd
  let o := applyMap (cmd == "npm run build") c.build o
  let o := applyMap (strContains cmd "lint") c.lint o
  let o := applyMap (cmd == "npm run dev") c.dev o
  let o := applyMap (cmd == "npm run build") c.build o
  let o := applyMap (strContains cmd "lint") c.lint o
  applyMap (cmd == "npm run dev") c.dev o

/-- The whole command-mapping block, including its guard
`agentrcConfig?.commands` (index.js:648): with no commands object the
command is untouched. -/
def mapCommand (cmd : String) (cmds : Option Commands) : String :=
  match cmds with
  | none => cmd
  | some c => mapCommandSteps cmd c

/-! ## Security check on reads (`tool.execute.before`, index.js:688-695) -/

def sensitiveEnvHit (config : Option Config) : Bool :=
  match config.bind Config.security with
  | none => false
  | some s =>
    match s.sensitiveFiles with
    | none => false
    | some fs => fs.contains "*.env"

def protectEnvRuleHit (config : Option Config) : Bool :=
  ((config.bind Config.rules).getD []).any
    (fun r => strContains (strToLower r) "protect .env")

/-- `true` exactly when the hook throws
`.env file access blocked by .agentrc security rules` for a `read`
invocation on `filePath`. -/
def envReadBlocked (config : Option Config) (filePath : String) : Bool :=
  strContains filePath ".env" && (sensitiveEnvHit config || protectEnvRuleHit config)

/-! ## The bash-path tokenizer for memory commands
(`tool.execute.before`, index.js:598-616)

`output.args.command.replace("memory ", "")` removes the leading
`memory ` (the guard `startsWith("memory ")` puts the first occurrence at
position 0); the remainder is split on single spaces, each token split on
`=`, and every single or double quote character is stripped from the
value.  Assignments into the `args` object are last-wins per key. -/

def stripQuotes (s : String) : String :=
  ⟨s.data.filter (fun c => !(c == dquoteC || c == squoteC))⟩

/-- `const [key, value] = part.split("="); if (key && value) ...` -/
def parseKeyValue (part : String) : Option (String × String) :=
  match splitChar (Char.ofNat 61) part with
  | key :: value :: _ =>
    if key == "" || value == "" then none else some (key, stripQuotes value)
  | _ => none

def setKey (m : List (String × String)) (k v : String) : List (String × String) :=
  if m.any (fun kv => kv.1 == k) then
    m.map (fun kv => if kv.1 == k then (k, v) else kv)
  else m ++ [(k, v)]

/-- One iteration of the `parts.forEach` loop (index.js:610-615). -/
def argStep (acc : List (String × String)) (part : String) :
    List (String × String) :=
  match parseKeyValue part with
  | some (k, v) => setKey acc k v
  | none => acc

def parseMemoryArgs (rest : String) : List (String × String) :=
  (splitChar (Char.ofNat 32) rest).foldl argStep []

/-- The full bash-path argument parse: strip the 7-character `memory `
prefix, then tokenize. -/
def parseBashMemoryArgs (command : String) : List (String × String) :=
  parseMemoryArgs (strDrop command 7)

/-- Rules after a memory command, for stating mutation properties. -/
def memRules (e : Except String MemOutcome) : Option (List String) :=
  match e with
  | .ok o => o.config.bind Config.rules
  | .error _ => none

/-! ## Helper lemmas -/

theorem loadAux_invalid_skip (i : Nat) (pre post : List (Option (Option Json)))
    (j : Json) (h : (jsTypeofObject j && !isJsonNull j) = false) :
    loadAgentrcAux i (pre ++ some (some j) :: post) =
      loadAgentrcAux i (pre ++ none :: post) := by
  induction pre generalizing i with
  | nil => simp [loadAgentrcAux, tryLoadCandidate, validateAgentrcConfig, h]
  | cons r rest ih =>
    simp only [List.cons_append, loadAgentrcAux]
    cases tryLoadCandidate r with
    | some c => rfl
    | none => exact ih (i + 1)

theorem applyMap_id (b : Bool) (v : Option String) (o : String)
    (h : b = true → v = none) : applyMap b v o = o := by
  cases b with
  | false => cases v <;> rfl
  | true => rw [h rfl]; rfl

end Agentrc

open Agentrc

/-- C1: the spec claims a candidate that parses to a non-object JSON value
makes loading fail hard with `InvalidConfig`, aborting initialization.
In the code the validation throw is caught by the candidate loop's
`try`/`catch` (index.js:46-49): with first candidate `42`, loading does
not abort and returns the second candidate. -/
theorem C1_invalid_not_hard_failure :
    loadAgentrcConfig
        [some (some (Json.num 42)),
         some (some (Json.obj [("project", Json.str "demo")])), none] =
      some (Json.obj [("project", Json.str "demo")], 1) := rfl

/-- C1 (amended): a candidate whose content parses to a value failing
`validateAgentrcConfig` is silently skipped; the load behaves exactly as
if that candidate file were absent, and never aborts. -/
theorem C1_invalid_candidate_skipped (pre post : List (Option (Option Json)))
    (j : Json) (h : (jsTypeofObject j && !isJsonNull j) = false) :
    loadAgentrcConfig (pre ++ some (some j) :: post) =
      loadAgentrcConfig (pre ++ none :: post) :=
  loadAux_invalid_skip 0 pre post j h

/-- C1 amended theorem applied at a concrete non-object candidate. -/
theorem C1_witness :
    loadAgentrcConfig
        ([] ++ some (some (Json.num 42)) ::
          [some (some (Json.obj [("a", Json.str "b")]))]) =
      loadAgentrcConfig
        ([] ++ none :: [some (some (Json.obj [("a", Json.str "b")]))]) :=
  C1_invalid_candidate_skipped [] [some (some (Json.obj [("a", Json.str "b")]))]
    (Json.num 42) (by decide)

/-- C7: a valid JSON object at the project-root path is returned exactly,
with source index 0, whatever the global and tool-global candidates hold;
and when the project-root candidate is absent or unparseable while the
global path holds a valid object, that global object is returned with
source index 1. -/
theorem C7_locator_priority :
    (∀ (fields : List (String × Json)) (g k : Option (Option Json)),
        loadAgentrcConfig [some (some (Json.obj fields)), g, k] =
          some (Json.obj fields, 0)) ∧
    (∀ (p : Option (Option Json)) (fields : List (String × Json))
        (k : Option (Option Json)),
        p = none ∨ p = some none →
        loadAgentrcConfig [p, some (some (Json.obj fields)), k] =
          some (Json.obj fields, 1)) := by
  constructor
  · intro fields g k
    simp [loadAgentrcConfig, loadAgentrcAux, tryLoadCandidate,
      validateAgentrcConfig, jsTypeofObject, isJsonNull]
  · intro p fields k hp
    rcases hp with rfl | rfl <;>
      simp [loadAgentrcConfig, loadAgentrcAux, tryLoadCandidate,
        validateAgentrcConfig, jsTypeofObject, isJsonNull]

/-- C7 applied to concrete candidate lists. -/
theorem C7_witness :
    loadAgentrcConfig
        [some (some (Json.obj [("x", Json.num 1)])), some none, none] =
      some (Json.obj [("x", Json.num 1)], 0) ∧
    loadAgentrcConfig
        [some none, some (some (Json.obj [("y", Json.num 2)])), none] =
      some (Json.obj [("y", Json.num 2)], 1) :=
  ⟨C7_locator_priority.1 [("x", Json.num 1)] (some none) none,
   C7_locator_priority.2 (some none) [("y", Json.num 2)] none (Or.inr rfl)⟩

/-- C2: when both configs carry rules, the merged rules are the legacy
rules followed by the primary rules; and the three identities hold:
`merge(P, none) = P`, `merge(none, L) = L`, `merge(none, none) = none`. -/
theorem C2_merge_rules :
    (∀ (P L : Config) (rp lp : List String),
        P.rules = some rp → L.rules = some lp →
        ∃ M, mergeConfigs (some P) (some L) = some M ∧
          M.rules = some (lp ++ rp)) ∧
    (∀ P : Config, mergeConfigs (some P) none = some P) ∧
    (∀ L : Config, mergeConfigs none (some L) = some L) ∧
    mergeConfigs none none = none := by
  refine ⟨?_, fun P => rfl, fun L => rfl, rfl⟩
  intro P L rp lp hp hl
  exact ⟨_, rfl, by simp [hp, hl]⟩

/-- C2 applied to concrete configs with rules on both sides. -/
theorem C2_witness :
    ∃ M, mergeConfigs (some { rules := some ["R1"] })
        (some { rules := some ["R0"] }) = some M ∧
      M.rules = some (["R0"] ++ ["R1"]) :=
  C2_merge_rules.1 { rules := some ["R1"] } { rules := some ["R0"] }
    ["R1"] ["R0"] rfl rfl

/-- C4: the spec claims the first backtick-quoted command per category
wins and later matches are ignored.  The extractor assigns on every match
(index.js:93-95), so the later `\x60bun test\x60` line overwrites the
earlier `\x60npm test\x60`: the final `test` command is not the first
match. -/
theorem C4_first_match_overwritten :
    (loadLegacyConfigs (some "\x60npm test\x60\n\x60bun test\x60") none).bind
        Config.commands =
      some { test := some "bun test", build := none, lint := none, dev := none } ∧
    (loadLegacyConfigs (some "\x60npm test\x60\n\x60bun test\x60") none).bind
        Config.commands ≠
      some { test := some "npm test", build := none, lint := none, dev := none } := by
  constructor
  · rfl
  · decide

theorem assignLegacyCmd_sets (cmds : Commands) (cmd : String) :
    (strContains cmd "test" = true → (assignLegacyCmd cmds cmd).test = some cmd) ∧
    (strContains cmd "build" = true → (assignLegacyCmd cmds cmd).build = some cmd) ∧
    (strContains cmd "lint" = true → (assignLegacyCmd cmds cmd).lint = some cmd) := by
  refine ⟨fun ht => ?_, fun hb => ?_, fun hl => ?_⟩
  · simp only [assignLegacyCmd]
    rw [if_pos ht]
    split <;> split <;> rfl
  · simp only [assignLegacyCmd]
    rw [if_pos hb]
    split <;> split <;> rfl
  · simp only [assignLegacyCmd]
    rw [if_pos hl]

/-- C4 (amended): per category, the **last** matching backtick-quoted
command wins: processing a line whose extracted command contains the
category substring assigns that command to the key, overwriting whatever
an earlier line had stored there. -/
theorem C4_last_match_wins (st : Commands × List String) (line cmd : String)
    (h : legacyLineCmd line = some cmd) :
    (strContains cmd "test" = true →
      (legacyProcessLine st line).1.test = some cmd) ∧
    (strContains cmd "build" = true →
      (legacyProcessLine st line).1.build = some cmd) ∧
    (strContains cmd "lint" = true →
      (legacyProcessLine st line).1.lint = some cmd) := by
  unfold legacyProcessLine
  simp only [h]
  exact assignLegacyCmd_sets st.1 cmd

/-- C4 amended theorem applied to a line that overwrites a previous
`test` assignment. -/
theorem C4_witness :
    (legacyProcessLine ({ test := some "npm test" }, []) "\x60bun test\x60").1.test =
      some "bun test" :=
  (C4_last_match_wins ({ test := some "npm test" }, []) "\x60bun test\x60"
    "bun test" (by decide)).1 (by decide)

/-- C5: the spec claims a read of a `.env` path is never blocked when no
`security` config is present.  The check (index.js:690-691) also fires on
any rule containing `protect .env` case-insensitively: this config has no
`security` key yet the read is blocked. -/
theorem C5_blocked_without_security_config :
    envReadBlocked
        (some { security := none, rules := some ["Please protect .env files"] })
        "config/.env" = true := by decide

theorem any_false_of_all {l : List String} {p : String → Bool}
    (h : ∀ r ∈ l, p r = false) : l.any p = false := by
  induction l with
  | nil => rfl
  | cons x xs ih =>
    simp only [List.any_cons, h x (List.mem_cons_self x xs), Bool.false_or]
    exact ih fun r hr => h r (List.mem_cons_of_mem x hr)

/-- C5 (amended): a read of a path containing `.env` always fails when
`security.sensitiveFiles` contains `"*.env"`; and it always succeeds when
no security config is present **and** no rule's text contains
`protect .env` case-insensitively. -/
theorem C5_env_security :
    (∀ (cfg : Config) (fp : String) (s : Security) (files : List String),
        strContains fp ".env" = true → cfg.security = some s →
        s.sensitiveFiles = some files → files.contains "*.env" = true →
        envReadBlocked (some cfg) fp = true) ∧
    (∀ (cfg : Config) (fp : String),
        cfg.security = none →
        (∀ r ∈ cfg.rules.getD [],
          strContains (strToLower r) "protect .env" = false) →
        envReadBlocked (some cfg) fp = false) := by
  constructor
  · intro cfg fp s files hfp hs hf hmem
    simp only [envReadBlocked, sensitiveEnvHit, Option.bind_eq_bind,
      Option.some_bind, hs, hf, hfp, hmem, Bool.true_or, Bool.and_self]
  · intro cfg fp hs hr
    simp [envReadBlocked, sensitiveEnvHit, protectEnvRuleHit, hs,
      any_false_of_all hr]

/-- C5 amended theorem applied to two concrete configurations. -/
theorem C5_witness :
    envReadBlocked
        (some { security := some { sensitiveFiles := some ["*.env"] } })
        "app/.env" = true ∧
    envReadBlocked (some { rules := some ["be tidy"] }) "app/.env" = false :=
  ⟨C5_env_security.1 { security := some { sensitiveFiles := some ["*.env"] } }
      "app/.env" { sensitiveFiles := some ["*.env"] } ["*.env"]
      (by decide) rfl rfl (by decide),
   C5_env_security.2 { rules := some ["be tidy"] } "app/.env" rfl (by decide)⟩

/-- C8: the command-mapping rewrite is a pure function of the captured
command string and the configured commands object: equal inputs give
equal outputs; a command matching none of the configured patterns is
never altered (including when the commands object is absent); and
`"npm run build"` with `commands.build = "make all"` is rewritten to
`"make all"`. -/
theorem C8_command_mapping :
    (∀ (c1 c2 : String) (m1 m2 : Option Commands),
        c1 = c2 → m1 = m2 → mapCommand c1 m1 = mapCommand c2 m2) ∧
    (∀ (cmd : String) (c : Commands),
        (cmd = "npm test" → c.test = none) →
        (cmd = "npm run build" → c.build = none) →
        (strContains cmd "lint" = true → c.lint = none) →
        (cmd = "npm run dev" → c.dev = none) →
        mapCommand cmd (some c) = cmd) ∧
    (∀ cmd : String, mapCommand cmd none = cmd) ∧
    mapCommand "npm run build" (some { build := some "make all" }) =
      "make all" := by
  refine ⟨fun c1 c2 m1 m2 h1 h2 => by rw [h1, h2], ?_, fun cmd => rfl, by decide⟩
  intro cmd c h1 h2 h3 h4
  show mapCommandSteps cmd c = cmd
  simp only [mapCommandSteps]
  rw [applyMap_id _ _ _ (fun hb => h1 (eq_of_beq hb)),
    applyMap_id _ _ _ (fun hb => h2 (eq_of_beq hb)),
    applyMap_id _ _ _ h3,
    applyMap_id _ _ _ (fun hb => h4 (eq_of_beq hb)),
    applyMap_id _ _ _ (fun hb => h2 (eq_of_beq hb)),
    applyMap_id _ _ _ h3,
    applyMap_id _ _ _ (fun hb => h4 (eq_of_beq hb))]

/-- C8 applied to a concrete non-matching command and matching maps. -/
theorem C8_witness :
    mapCommand "echo hi" (some { test := some "bun test" }) = "echo hi" ∧
    mapCommand "npm test" (some { test := some "bun test" }) =
      mapCommand "npm test" (some { test := some "bun test" }) :=
  ⟨C8_command_mapping.2.1 "echo hi" { test := some "bun test" }
      (by decide) (by decide) (by decide) (by decide),
   C8_command_mapping.1 "npm test" "npm test" (some { test := some "bun test" })
      (some { test := some "bun test" }) rfl rfl⟩

/-- C3: the spec requires `remove` at an out-of-range index to raise
`IndexOutOfRange` and leave the rules unchanged.  The code
(index.js:410-426) instead reads `rules[5]` as `undefined`, calls
`splice(5, 1)` (which removes nothing), and returns a success result
`Removed rule: undefined` — it silently succeeds. -/
theorem C3_out_of_range_silently_succeeds :
    handleMemoryCommand (some "remove") none (some 5)
        (some { rules := some ["A"] }) (some "path") =
      .ok { title := "🗑️ Rule Removed", output := "Removed rule: undefined",
            config := some { rules := some ["A"] }, persisted := true } := rfl

/-- C6: the spec claims every successful add/remove persists to the
primary file location, including when the effective config came only
from legacy extraction.  In that case `loadAgentrcConfig` returned a
`null` path, so `fs.writeFile` is skipped (index.js:399, 417): the add
below succeeds without persisting. -/
theorem C6_legacy_only_add_not_persisted :
    handleMemoryCommand (some "add") (some "X") none
        (mergeConfigs none (loadLegacyConfigs (some "- style: tidy") none))
        none =
      .ok { title := "✅ Rule Added", output := "Added rule: X",
            config := some { commands := some {}, rules := some ["style: tidy", "X"],
                             project := some [] },
            persisted := false } := rfl

/-- C6 (amended): a successful memory `add` or `remove` persists to the
primary file path exactly when such a path exists (the location the
config was loaded from, or the project-root file once `init` created
it); with a legacy-extraction-only config the path is `null` and the
mutation succeeds in memory without persisting. -/
theorem C6_persist_iff_path :
    (∀ (r : String) (cfg : Config) (path : Option String) (o : MemOutcome),
        handleMemoryCommand (some "add") (some r) none (some cfg) path =
          .ok o →
        o.persisted = path.isSome) ∧
    (∀ (i : Int) (cfg : Config) (path : Option String) (o : MemOutcome),
        handleMemoryCommand (some "remove") none (some i) (some cfg) path =
          .ok o →
        o.persisted = path.isSome) := by
  constructor
  · intro r cfg path o h
    by_cases hr : r = ""
    · subst hr; simp [handleMemoryCommand] at h
    · simp [handleMemoryCommand, hr] at h
      subst h
      rfl
  · intro i cfg path o h
    cases hrs : cfg.rules with
    | none => simp [handleMemoryCommand, hrs] at h
    | some rs =>
      simp [handleMemoryCommand, hrs] at h
      subst h
      rfl

/-- C6 amended theorem applied to a concrete add with a present path. -/
theorem C6_witness :
    ({ title := "✅ Rule Added", output := "Added rule: X",
       config := some { rules := some ["X"] },
       persisted := true } : MemOutcome).persisted =
      (some "p" : Option String).isSome :=
  C6_persist_iff_path.1 "X" { rules := some [] } (some "p") _ rfl

/-- C9: memory `add` appends the new rule at the end of the rules list;
`remove` at a valid index deletes exactly that element, shifting the
later ones down by one; and the scenario — rules `["A"]`, add `"X"`,
then remove at index 0 — ends with rules `["X"]`. -/
theorem C9_add_remove :
    (∀ (cfg : Config) (r : String) (path : Option String),
        r ≠ "" →
        memRules (handleMemoryCommand (some "add") (some r) none
            (some cfg) path) =
          some (cfg.rules.getD [] ++ [r])) ∧
    (∀ (cfg : Config) (rs : List String) (i : Nat) (path : Option String),
        cfg.rules = some rs → i < rs.length →
        memRules (handleMemoryCommand (some "remove") none (some (i : Int))
            (some cfg) path) =
          some (rs.take i ++ rs.drop (i + 1))) ∧
    memRules (handleMemoryCommand (some "remove") none (some 0)
        ((handleMemoryCommand (some "add") (some "X") none
            (some { rules := some ["A"] }) (some "p")).toOption.bind
          MemOutcome.config)
        (some "p")) = some ["X"] := by
  refine ⟨?_, ?_, rfl⟩
  · intro cfg r path hr
    simp [handleMemoryCommand, hr, memRules]
  · intro cfg rs i path hrs hi
    have hstart : jsSpliceStart rs.length (i : Int) = i := by
      simp [jsSpliceStart, Int.toNat_ofNat, Nat.min_eq_left (Nat.le_of_lt hi)]
    simp [handleMemoryCommand, hrs, memRules, jsSplice1, hstart,
      List.eraseIdx_eq_take_drop_succ]

/-- C9 applied to a concrete add and a concrete valid remove. -/
theorem C9_witness :
    memRules (handleMemoryCommand (some "add") (some "X") none
        (some { rules := some ["A"] }) (some "p")) =
      some (["A"] ++ ["X"]) ∧
    memRules (handleMemoryCommand (some "remove") none (some (0 : Nat))
        (some { rules := some ["A", "X"] }) (some "p")) =
      some (["A", "X"].take 0 ++ ["A", "X"].drop 1) :=
  ⟨C9_add_remove.1 { rules := some ["A"] } "X" (some "p") (by decide),
   C9_add_remove.2.1 { rules := some ["A", "X"] } ["A", "X"] 0 (some "p")
      rfl (by decide)⟩

theorem splitCharAux_no_sep (c : Char) (l : List Char) :
    ∀ acc : List Char, (∀ a ∈ acc, a ≠ c) →
    ∀ t ∈ splitCharAux c l acc, ∀ ch ∈ t, ch ≠ c := by
  induction l with
  | nil =>
    intro acc hacc t ht ch hch
    simp only [splitCharAux, List.mem_singleton] at ht
    subst ht
    exact hacc ch (List.mem_reverse.mp hch)
  | cons x xs ih =>
    intro acc hacc t ht ch hch
    simp only [splitCharAux] at ht
    by_cases hx : (x == c) = true
    · simp only [hx, if_true] at ht
      rcases List.mem_cons.mp ht with rfl | ht'
      · exact hacc ch (List.mem_reverse.mp hch)
      · exact ih [] (by simp) t ht' ch hch
    · simp only [hx, if_false, Bool.false_eq_true] at ht
      refine ih (x :: acc) ?_ t ht ch hch
      intro a ha
      rcases List.mem_cons.mp ha with rfl | ha'
      · exact fun hEq => hx (by simp [hEq])
      · exact hacc a ha'

theorem splitCharAux_chars_sub (c : Char) (l : List Char) :
    ∀ acc : List Char, ∀ t ∈ splitCharAux c l acc, ∀ ch ∈ t,
      ch ∈ l ∨ ch ∈ acc := by
  induction l with
  | nil =>
    intro acc t ht ch hch
    simp only [splitCharAux, List.mem_singleton] at ht
    subst ht
    exact Or.inr (List.mem_reverse.mp hch)
  | cons x xs ih =>
    intro acc t ht ch hch
    simp only [splitCharAux] at ht
    by_cases hx : (x == c) = true
    · simp only [hx, if_true] at ht
      rcases List.mem_cons.mp ht with rfl | ht'
      · exact Or.inr (List.mem_reverse.mp hch)
      · rcases ih [] t ht' ch hch with h | h
        · exact Or.inl (List.mem_cons_of_mem x h)
        · simp at h
    · simp only [hx, if_false, Bool.false_eq_true] at ht
      rcases ih (x :: acc) t ht ch hch with h | h
      · exact Or.inl (List.mem_cons_of_mem x h)
      · rcases List.mem_cons.mp h with heq | h'
        · exact Or.inl (by rw [heq]; exact List.mem_cons_self x xs)
        · exact Or.inr h'

theorem contains_single_char_false (c : Char) (l : List Char)
    (h : ∀ ch ∈ l, ch ≠ c) : listContainsSub [c] l = false := by
  induction l with
  | nil => rfl
  | cons x xs ih =>
    have hxc : (c == x) = false := by
      have hx := h x (List.mem_cons_self x xs)
      simp only [beq_eq_false_iff_ne, ne_eq]
      exact fun hEq => hx hEq.symm
    simp [listContainsSub, listIsPrefix, hxc,
      ih fun ch hch => h ch (List.mem_cons_of_mem x hch)]

theorem parseKeyValue_value_chars (part k v : String)
    (hkv : parseKeyValue part = some (k, v)) :
    ∀ ch ∈ v.data, ch ∈ part.data := by
  intro ch hch
  unfold parseKeyValue at hkv
  cases hsp : splitChar (Char.ofNat 61) part with
  | nil => rw [hsp] at hkv; exact absurd hkv (by simp)
  | cons key rest =>
    cases rest with
    | nil => rw [hsp] at hkv; exact absurd hkv (by simp)
    | cons value rest2 =>
      rw [hsp] at hkv
      simp only at hkv
      split at hkv
      · exact absurd hkv (by simp)
      · simp only [Option.some.injEq, Prod.mk.injEq] at hkv
        obtain ⟨-, hv⟩ := hkv
        have hmemv : ch ∈ value.data := by
          have : v.data = value.data.filter
              (fun c => !(c == dquoteC || c == squoteC)) := by
            rw [← hv]; rfl
          rw [this] at hch
          exact List.mem_of_mem_filter hch
        have hvmem : value ∈ splitChar (Char.ofNat 61) part := by
          rw [hsp]; exact List.mem_cons_of_mem _ (List.mem_cons_self _ _)
        obtain ⟨t, htm, hte⟩ := List.mem_map.mp hvmem
        have hct : ch ∈ t := by
          have := congrArg String.data hte
          simp only at this
          rwa [← this] at hmemv
        rcases splitCharAux_chars_sub (Char.ofNat 61) part.data [] t htm ch hct
          with h | h
        · exact h
        · simp at h

theorem setKey_values (P : String → Prop) (m : List (String × String))
    (k v : String) (hm : ∀ p ∈ m, P p.2) (hv : P v) :
    ∀ p ∈ setKey m k v, P p.2 := by
  intro p hp
  unfold setKey at hp
  split at hp
  · obtain ⟨q, hq, hpe⟩ := List.mem_map.mp hp
    by_cases hqk : (q.1 == k) = true
    · rw [if_pos hqk] at hpe; subst hpe; exact hv
    · rw [if_neg hqk] at hpe; subst hpe; exact hm q hq
  · rcases List.mem_append.mp hp with h | h
    · exact hm p h
    · simp only [List.mem_singleton] at h; subst h; exact hv

theorem argStep_fold_values (P : String → Prop) (parts : List String)
    (hparts : ∀ part ∈ parts, ∀ k v, parseKeyValue part = some (k, v) → P v) :
    ∀ acc : List (String × String), (∀ p ∈ acc, P p.2) →
    ∀ p ∈ parts.foldl argStep acc, P p.2 := by
  induction parts with
  | nil => intro acc hacc; exact hacc
  | cons hd tl ih =>
    intro acc hacc
    simp only [List.foldl_cons]
    refine ih (fun part hpt k v h => hparts part (List.mem_cons_of_mem hd hpt) k v h)
      (argStep acc hd) ?_
    cases hkv : parseKeyValue hd with
    | none => simpa [argStep, hkv] using hacc
    | some kv =>
      obtain ⟨k, v⟩ := kv
      simp only [argStep, hkv]
      exact setKey_values P acc k v hacc
        (hparts hd (List.mem_cons_self hd tl) k v hkv)

/-- C10: the bash-path tokenizer splits the command on single spaces
before splitting each token on `=` and stripping quote characters, so no
parsed argument value can contain a space; in particular the bash command
`memory action=add rule="A B"` parses `rule` as `"A"` — rule text with
spaces cannot pass intact through the bash path. -/
theorem C10_bash_tokenizer :
    (∀ (command k v : String), (k, v) ∈ parseBashMemoryArgs command →
        strContains v " " = false) ∧
    parseBashMemoryArgs "memory action=add rule=\"A B\"" =
      [("action", "add"), ("rule", "A")] := by
  refine ⟨?_, by decide⟩
  intro command k v hmem
  have hnos : ∀ ch ∈ v.data, ch ≠ Char.ofNat 32 := by
    refine argStep_fold_values (fun w => ∀ ch ∈ w.data, ch ≠ Char.ofNat 32)
      (splitChar (Char.ofNat 32) (strDrop command 7)) ?_ [] (by simp)
      (k, v) hmem
    intro part hpt k' v' hkv ch hch
    have hchpart : ch ∈ part.data := parseKeyValue_value_chars part k' v' hkv ch hch
    obtain ⟨t, htm, hte⟩ := List.mem_map.mp hpt
    have hct : ch ∈ t := by
      have hd := congrArg String.data hte
      simp only at hd
      rwa [← hd] at hchpart
    exact splitCharAux_no_sep (Char.ofNat 32) (strDrop command 7).data []
      (by simp) t htm ch hct
  show listContainsSub " ".data v.data = false
  have h32 : " ".data = [Char.ofNat 32] := rfl
  rw [h32]
  exact contains_single_char_false _ _ hnos

/-- C10 applied to the concrete bash command with a spaced rule value. -/
theorem C10_witness :
    strContains "A" " " = false ∧
    parseBashMemoryArgs "memory action=add rule=\"A B\"" =
      [("action", "add"), ("rule", "A")] :=
  ⟨C10_bash_tokenizer.1 "memory action=add rule=\"A B\"" "rule" "A"
      (by
        rw [C10_bash_tokenizer.2]
        exact List.mem_cons_of_mem _ (List.mem_cons_self _ _)),
   C10_bash_tokenizer.2⟩
